import Mathlib

/-!
Shallow embedding of the calendar core of `src/calendar.js` (pilot-bot).

Times are modelled as `Int` milliseconds since the epoch, in the local fixed
offset time zone (the configured zone, Africa/Johannesburg, has no DST, so
`setHours` arithmetic is a fixed offset from local midnight).  A calendar date
is represented by the instant of its local midnight, so
`day.setHours(h, 0, 0, 0)` becomes `dateStart + h * 3600000`.

Network calls (`calendar.events.list` per calendar id) are modelled by a fetch
oracle `String → Except String (List GEvent)`: for each configured calendar id
either the list of raw events the API returned for the queried window, or the
thrown error message.  The time window of a query only determines what the
oracle returns, so it is folded into the oracle itself.

JavaScript `Array.prototype.sort` is required by the ECMAScript spec to be a
stable sort consistent with the comparator; for a total, transitive comparator
the stable sorted permutation is unique, so it is modelled by
`List.insertionSort` (structurally recursive, hence evaluable), which is stable
and sorts.
-/

namespace PilotBot

/-- One time field of a Google Calendar event object: timed events carry
`dateTime`, all-day events carry `date` (both modelled as resolved instants in
ms).  Mirrors the shape read by `e.start.dateTime || e.start.date`. -/
structure EventTime where
  dateTime : Option Int
  date : Option Int
deriving DecidableEq

/-- A timed event field (`dateTime` present). -/
def EventTime.timed (t : Int) : EventTime := ⟨some t, none⟩

/-- An all-day event field (`date` only). -/
def EventTime.allDay (d : Int) : EventTime := ⟨none, some d⟩

/-- `new Date(t.dateTime || t.date)`: `dateTime` wins when present, otherwise
`date`.  (An event with neither field would be an invalid JS date; such events
do not occur in API responses and no claim depends on the `0` default.) -/
def EventTime.resolve (t : EventTime) : Int :=
  (t.dateTime.orElse fun _ => t.date).getD 0

/-- A calendar event as handled by `calendar.js`: the fields the code touches.
`stop` is the `end` field of the source (a reserved word in Lean). -/
structure GEvent where
  summary : Option String
  description : Option String
  location : Option String
  start : EventTime
  stop : EventTime
  calendarId : Option String
deriving DecidableEq

/-- A busy interval or a free slot: a `{start, end}` pair (ms instants). -/
structure Interval where
  start : Int
  stop : Int
deriving DecidableEq

/-- `MIN_HOUR` from the config section. -/
def MIN_HOUR : Int := 8

/-- `MAX_HOUR` from the config section. -/
def MAX_HOUR : Int := 22

/-! ### URL stripping (`stripUrls`)

`text.replace(/https?:\/\/\S+/g, "").trim()` is modelled character by
character: scan left to right; whenever the remaining text starts with
`http://` or `https://`, delete the maximal run of non-whitespace characters
from that point (the regex match), and continue after it; finally trim.
(ASCII whitespace; the strings in this code base contain no exotic JS-only
whitespace characters.) -/

/-- Boolean prefix test on character lists. -/
def isPrefixChars : List Char → List Char → Bool
  | [], _ => true
  | _ :: _, [] => false
  | a :: as, b :: bs => a == b && isPrefixChars as bs

/-- Is there a character here, and is it non-whitespace?  (The witness for a
non-empty `\S+`.) -/
def hasNonWsAt : List Char → Bool
  | [] => false
  | c :: _ => !c.isWhitespace

/-- `schemeAt pat l`: the text `l` starts with the scheme `pat` followed by at
least one non-whitespace character — i.e. `pat` plus a non-empty `\S+` can
match here. -/
def schemeAt : List Char → List Char → Bool
  | [], l => hasNonWsAt l
  | _ :: _, [] => false
  | a :: as, b :: bs => a == b && schemeAt as bs

/-- Does a `/https?:\/\/\S+/` match begin at this position?  (`https?` tries
both alternatives; either way the match extends over the whole run of
non-whitespace characters from here, since the scheme itself is
non-whitespace and `\S+` is greedy.) -/
def urlAt (l : List Char) : Bool :=
  schemeAt "http://".toList l || schemeAt "https://".toList l

/-- Core of `String.prototype.replace` with the global regex
`/https?:\/\/\S+/g` and the empty replacement, as a two-state scanner: in the
`skipping` state the scanner is inside a match and drops characters until the
next whitespace (`\S+` is greedy); in the normal state a position where a
match begins starts skipping. -/
def stripScan : Bool → List Char → List Char
  | _, [] => []
  | true, c :: cs =>
    if c.isWhitespace then c :: stripScan false cs else stripScan true cs
  | false, c :: cs =>
    if urlAt (c :: cs) then stripScan true cs else c :: stripScan false cs

/-- The full `replace(/https?:\/\/\S+/g, "")` pass. -/
def stripUrlsAux (l : List Char) : List Char := stripScan false l

/-- `String.prototype.trim` on a character list (ASCII whitespace). -/
def trimChars (l : List Char) : List Char :=
  ((l.dropWhile Char.isWhitespace).reverse.dropWhile Char.isWhitespace).reverse

/-- `stripUrls(text)`: `text ? text.replace(/https?:\/\/\S+/g, "").trim() : ""`.
The `Option` models a possibly-undefined field; `none` and the empty string
are both falsy. -/
def stripUrls : Option String → String
  | none => ""
  | some s => if s = "" then "" else ⟨trimChars (stripUrlsAux s.toList)⟩

/-- Does a URL (an `http://` or `https://` scheme followed by at least one
non-whitespace character) occur anywhere in the text?  This is the
no-raw-links property the spec asserts of sanitized free-text fields. -/
def hasUrlAt : List Char → Bool
  | [] => false
  | c :: cs => urlAt (c :: cs) || hasUrlAt cs

/-- String-level wrapper of `hasUrlAt`. -/
def containsUrl (s : String) : Bool := hasUrlAt s.toList

/-! ### The multi-calendar reader (`getEventsForRange`, `getEventsForDate`) -/

/-- `startMs e` is the sort key of `sortByStart`:
`new Date(e.start.dateTime || e.start.date)`. -/
def startMs (e : GEvent) : Int := e.start.resolve

/-- The order imposed by the `sortByStart` comparator. -/
def sortByStart (a b : GEvent) : Prop := startMs a ≤ startMs b

instance : DecidableRel sortByStart := fun a b => Int.decLe _ _

instance : IsTotal GEvent sortByStart := ⟨fun a b => Int.le_total _ _⟩

instance : IsTrans GEvent sortByStart := ⟨fun _ _ _ => Int.le_trans⟩

/-- The `{...e, summary: stripUrls(e.summary), description: stripUrls(e.description)}`
sanitization step.  Note `location` is not touched. -/
def sanitizeEvent (e : GEvent) : GEvent :=
  { e with summary := some (stripUrls e.summary),
           description := some (stripUrls e.description) }

/-- `allEvents` just before the final sort: per-calendar results in
configuration order, each event tagged with its `calendarId`, a failed source
contributing nothing (the `catch` branch), then sanitized. -/
def allEventsOf (calendarIds : List String)
    (fetch : String → Except String (List GEvent)) : List GEvent :=
  (calendarIds.flatMap fun calId =>
    match fetch calId with
    | Except.ok items => items.map fun e => { e with calendarId := some calId }
    | Except.error _ => []).map sanitizeEvent

/-- `getEventsForRange`: early `[]` when no calendars are configured, else the
tagged, sanitized concatenation sorted stably by start instant. -/
def getEventsForRange (calendarIds : List String)
    (fetch : String → Except String (List GEvent)) : List GEvent :=
  if calendarIds.isEmpty then []
  else (allEventsOf calendarIds fetch).insertionSort sortByStart

/-- `getEventsForDate` delegates to `getEventsForRange` over the whole local
day; the day window only determines what the fetch oracle returns. -/
def getEventsForDate (calendarIds : List String)
    (fetch : String → Except String (List GEvent)) : List GEvent :=
  getEventsForRange calendarIds fetch

/-! ### The free-slot finder (`findOpenSlots`) -/

/-- The busy projection of an event:
`{start: new Date(e.start.dateTime || e.start.date), end: ...}`. -/
def evInterval (e : GEvent) : Interval := ⟨e.start.resolve, e.stop.resolve⟩

/-- The order imposed by the `(a, b) => a.start - b.start` comparator. -/
def intervalLE (a b : Interval) : Prop := a.start ≤ b.start

instance : DecidableRel intervalLE := fun a b => Int.decLe _ _

instance : IsTotal Interval intervalLE := ⟨fun a b => Int.le_total _ _⟩

instance : IsTrans Interval intervalLE := ⟨fun _ _ _ => Int.le_trans⟩

/-- The `busy` list of `findOpenSlots`: events of the day projected to
intervals and re-sorted by start. -/
def busyOf (calendarIds : List String)
    (fetch : String → Except String (List GEvent)) : List Interval :=
  ((getEventsForDate calendarIds fetch).map evInterval).insertionSort intervalLE

/-- The sweep loop of `findOpenSlots`.  `Sum.inl free` models the early
`return free` taken when the limit is reached (note: not sliced);
`Sum.inr (free, cursor)` is the state after a normal loop exit. -/
def slotsLoop (durationMs : Int) (limit : Nat) :
    List Interval → Int → List Interval → (List Interval) ⊕ (List Interval × Int)
  | [], cursor, free => Sum.inr (free, cursor)
  | b :: rest, cursor, free =>
    if b.stop ≤ cursor then
      slotsLoop durationMs limit rest cursor free
    else if b.start - cursor ≥ durationMs then
      if (free ++ [Interval.mk cursor (cursor + durationMs)]).length ≥ limit then
        Sum.inl (free ++ [Interval.mk cursor (cursor + durationMs)])
      else
        slotsLoop durationMs limit rest (if b.stop > cursor then b.stop else cursor)
          (free ++ [Interval.mk cursor (cursor + durationMs)])
    else
      slotsLoop durationMs limit rest (if b.stop > cursor then b.stop else cursor) free

/-- `findOpenSlots(dateInput, durationMinutes, limit = 100)`.  `dateStart` is
the local-midnight instant of the queried date, so `dayStart`/`dayEnd` are
`dateStart + MIN_HOUR*3600000` and `dateStart + MAX_HOUR*3600000`. -/
def findOpenSlots (dateStart : Int) (calendarIds : List String)
    (fetch : String → Except String (List GEvent))
    (durationMinutes : Int) (limit : Nat) : List Interval :=
  match slotsLoop (durationMinutes * 60 * 1000) limit (busyOf calendarIds fetch)
      (dateStart + MIN_HOUR * 3600000) [] with
  | Sum.inl free => free
  | Sum.inr (free, cursor) =>
    if dateStart + MAX_HOUR * 3600000 - cursor ≥ durationMinutes * 60 * 1000
        ∧ free.length < limit then
      (free ++ [Interval.mk cursor (cursor + durationMinutes * 60 * 1000)]).take limit
    else
      free.take limit

/-! ### The fuzzy matcher (`searchEventsByText`) -/

/-- `String.prototype.toLowerCase`, character by character (ASCII; the
non-ASCII characters appearing in this code base are case-invariant). -/
def lowerStr (s : String) : String := ⟨s.toList.map Char.toLower⟩

/-- `String.prototype.trim` on strings. -/
def trimStr (s : String) : String := ⟨trimChars s.toList⟩

/-- Split at every whitespace character (consecutive separators yield empty
pieces, exactly like `String.split`; the empty pieces are filtered away by
`tokensOf`, so the composite matches the JS `split(/\s+/)` + truthiness
filter). -/
def splitWs (s : String) : List String := go s.toList []
where
  go : List Char → List Char → List String
    | [], acc => [⟨acc.reverse⟩]
    | c :: cs, acc =>
      if c.isWhitespace then (⟨acc.reverse⟩ : String) :: go cs [] else go cs (c :: acc)

/-- The stopword set of `searchEventsByText`. -/
def stopwords : List String :=
  ["the", "a", "an", "to", "for", "with", "my", "me", "please", "call",
   "meeting", "appointment", "slot", "event", "cancel", "move", "reschedule",
   "book", "schedule"]

/-- `lower.split(/\s+/).filter(t => t && !stopwords.has(t))`: whitespace
tokenization with empty pieces and stopwords dropped. -/
def tokensOf (lower : String) : List String :=
  (splitWs lower).filter fun t => !(t == "") && !(stopwords.contains t)

/-- JS `haystack.includes(needle)`: contiguous substring test. -/
def strIncludes (haystack needle : String) : Bool :=
  go haystack.toList
where
  go : List Char → Bool
    | [] => needle.toList.isEmpty
    | c :: cs => isPrefixChars needle.toList (c :: cs) || go cs

/-- The filter predicate of `searchEventsByText`: direct substring match on
lower-cased `summary + " " + description`, else all non-stopword tokens must
appear (an empty token set never matches in this tier). -/
def matchesQuery (lower : String) (e : GEvent) : Bool :=
  if strIncludes (lowerStr ((e.summary.getD "") ++ " " ++ (e.description.getD ""))) lower
  then true
  else if (tokensOf lower).isEmpty then false
  else (tokensOf lower).all fun tok =>
    strIncludes (lowerStr ((e.summary.getD "") ++ " " ++ (e.description.getD ""))) tok

/-- `searchEventsByText(searchText, ...)`: range read over the search window
(folded into the fetch oracle), then query normalization
(`(searchText || "").toLowerCase().trim()`), empty-query short-circuit, and
the two-tier filter. -/
def searchEventsByText (calendarIds : List String)
    (fetch : String → Except String (List GEvent))
    (searchText : Option String) : List GEvent :=
  if calendarIds.isEmpty then []
  else if trimStr (lowerStr (searchText.getD "")) = "" then []
  else (getEventsForRange calendarIds fetch).filter
    (matchesQuery (trimStr (lowerStr (searchText.getD ""))))

/-! ### Specification-side definitions used by the theorems -/

/-- The slots the loop emits when it never hits the limit: at most one
earliest-placed slot per busy interval, the cursor jumping to each
interval's end. -/
def sweepSlots (durationMs : Int) : List Interval → Int → List Interval
  | [], _ => []
  | b :: rest, cursor =>
    (if b.start - cursor ≥ durationMs then [Interval.mk cursor (cursor + durationMs)]
     else []) ++ sweepSlots durationMs rest b.stop

/-- The cursor position after sweeping a busy list. -/
def finalCursor : List Interval → Int → Int
  | [], cursor => cursor
  | b :: rest, _ => finalCursor rest b.stop

/-- Well-formed busy list as seen from cursor `c`: sorted by start, pairwise
disjoint, non-degenerate intervals, all starting at or after `c`. -/
def wfBusy : Int → List Interval → Bool
  | _, [] => true
  | c, b :: rest => (decide (c ≤ b.start) && decide (b.start < b.stop)) && wfBusy b.stop rest

/-- The gaps of a busy list inside the window `[c, e]`: each window edge or
interval end paired with the next interval start or the window end. -/
def gapsOf : Int → List Interval → Int → List (Int × Int)
  | c, [], e => [(c, e)]
  | c, b :: rest, e => (c, b.start) :: gapsOf b.stop rest e

/-- The complete sweep result: loop slots plus the trailing end-of-window
slot. -/
def fullSweep (durationMs : Int) (busy : List Interval) (c e : Int) : List Interval :=
  sweepSlots durationMs busy c ++
    (if e - finalCursor busy c ≥ durationMs then
      [Interval.mk (finalCursor busy c) (finalCursor busy c + durationMs)]
     else [])

/-! ### The mutation target (`rescheduleEventById`) -/

/-- A patch request body for `events.patch`: `rescheduleEventById` sends only
`start` and `end`. -/
structure PatchBody where
  start : Option EventTime
  stop : Option EventTime

/-- Modelled from the spec: the Google Calendar backend (`calendar.events.patch`)
is not part of src/; per the spec, a reschedule "patches only the time fields,
preserving all other event attributes" — fields present in the body replace
the stored ones, absent fields are untouched. -/
def applyPatch (body : PatchBody) (e : GEvent) : GEvent :=
  { e with start := body.start.getD e.start, stop := body.stop.getD e.stop }

/-- Modelled from the spec: the calendar backend's event store, keyed by
(calendarId, eventId) — "callers must have obtained them from a prior
Reader/Matcher result". -/
abbrev Store := List ((String × String) × GEvent)

/-- Reading one event back from the store (a subsequent read of that
(sourceId, eventId)). -/
def readEvent (store : Store) (calendarId eventId : String) : Option GEvent :=
  (store.find? fun kv => kv.1 == (calendarId, eventId)).map fun kv => kv.2

/-- `rescheduleEventById(calendarId, eventId, newStart, newEnd)`: throws when
either identifier is falsy, else issues a patch whose body holds only the new
start/end `dateTime` fields. -/
def rescheduleEventById (store : Store) (calendarId eventId : String)
    (newStart newEnd : Int) : Except String Store :=
  if calendarId = "" ∨ eventId = "" then
    Except.error "rescheduleEventById requires calendarId and eventId"
  else
    Except.ok (store.map fun kv =>
      if kv.1 = (calendarId, eventId) then
        (kv.1, applyPatch ⟨some (EventTime.timed newStart), some (EventTime.timed newEnd)⟩ kv.2)
      else kv)

/-! ### Concrete fixtures used by witnesses and counterexamples -/

/-- A pure all-day event covering the local day starting at `d`. -/
def allDayEv (d : Int) : GEvent :=
  { summary := some "Team offsite", description := none, location := none,
    start := EventTime.allDay d, stop := EventTime.allDay (d + 86400000),
    calendarId := none }

/-- A timed event from `s` to `e` titled `t`. -/
def timedEv (t : String) (s e : Int) : GEvent :=
  { summary := some t, description := none, location := none,
    start := EventTime.timed s, stop := EventTime.timed e, calendarId := none }

/-- Fetch oracle: a 08:00–21:30 event and a 23:00–23:59 event (times on the
day whose local midnight is instant 0). -/
def fetchLateEvening : String → Except String (List GEvent) := fun _ =>
  Except.ok [timedEv "Work block" 28800000 77400000,
             timedEv "Late call" 82800000 86340000]

/-- Fetch oracle: one 10:00–11:00 event. -/
def fetchMidMorning : String → Except String (List GEvent) := fun _ =>
  Except.ok [timedEv "Standup" 36000000 39600000]

/-- Fetch oracle: one pure all-day event on the day of instant 0. -/
def fetchAllDay : String → Except String (List GEvent) := fun _ =>
  Except.ok [allDayEv 0]

/-- Fetch oracle: no events. -/
def fetchNone : String → Except String (List GEvent) := fun _ => Except.ok []

/-- Fetch oracle for the fuzzy-match scenario of the spec. -/
def fetchSergio : String → Except String (List GEvent) := fun _ =>
  Except.ok [timedEv "Morning Gym Session" 1000 2000,
             timedEv "Sergio – Strategy Call" 3000 4000,
             timedEv "Sergio\x27s Birthday" 5000 6000]

/-- Fetch oracle: one event whose summary and location both carry a URL. -/
def fetchZoom : String → Except String (List GEvent) := fun _ =>
  Except.ok [{ summary := some "Standup https://zoom.us/j/99 sync",
               description := none, location := some "https://zoom.us/j/123",
               start := EventTime.timed 1000, stop := EventTime.timed 2000,
               calendarId := none }]

/-- The event of `fetchZoom` as the range read returns it: tagged, summary
stripped, location untouched. -/
def zoomOutEv : GEvent :=
  { summary := some "Standup  sync", description := some "",
    location := some "https://zoom.us/j/123", start := EventTime.timed 1000,
    stop := EventTime.timed 2000, calendarId := some "cal1" }

/-- Fetch oracle that always fails. -/
def fetchFail : String → Except String (List GEvent) := fun _ =>
  Except.error "backend unavailable"

/-- A one-event store for the reschedule witness. -/
def demoStore : Store :=
  [(("cal1", "ev1"),
    { summary := some "Dentist", description := some "check-up",
      location := some "clinic", start := EventTime.timed 1000,
      stop := EventTime.timed 2000, calendarId := some "cal1" })]

/-! ### The URL-freedom invariant of `stripUrls` -/

/-- The two scheme patterns of `/https?:\/\/\S+/`. -/
def httpPat : List Char := ['h', 't', 't', 'p', ':', '/', '/']

/-- The `https` alternative. -/
def httpsPat : List Char := ['h', 't', 't', 'p', 's', ':', '/', '/']

/-- Either empty or starting with a whitespace character. -/
def HeadWs : List Char → Prop
  | [] => True
  | c :: _ => c.isWhitespace = true

theorem urlAt_eq_pats (l : List Char) :
    urlAt l = (schemeAt httpPat l || schemeAt httpsPat l) := rfl

theorem schemeAt_append_right {pat p : List Char} (y : List Char)
    (h : schemeAt pat p = true) : schemeAt pat (p ++ y) = true := by
  induction pat generalizing p with
  | nil =>
    cases p with
    | nil => simp [schemeAt, hasNonWsAt] at h
    | cons c cs => simpa [schemeAt, hasNonWsAt] using h
  | cons a as ih =>
    cases p with
    | nil => simp [schemeAt] at h
    | cons b bs =>
      simp only [List.cons_append, schemeAt, Bool.and_eq_true] at h ⊢
      exact ⟨h.1, ih h.2⟩

theorem schemeAt_append_ws {pat p x : List Char}
    (hpat : ∀ c ∈ pat, c.isWhitespace = false) (hx : HeadWs x)
    (h : schemeAt pat (p ++ x) = true) : schemeAt pat p = true := by
  induction pat generalizing p with
  | nil =>
    cases p with
    | nil =>
      exfalso
      cases x with
      | nil => simp [schemeAt, hasNonWsAt] at h
      | cons w ws =>
        have hw : w.isWhitespace = true := hx
        simp [schemeAt, hasNonWsAt, hw] at h
    | cons c cs => simpa [schemeAt, hasNonWsAt] using h
  | cons a as ih =>
    cases p with
    | nil =>
      exfalso
      cases x with
      | nil => simp [schemeAt] at h
      | cons w ws =>
        simp only [List.nil_append, schemeAt, Bool.and_eq_true, beq_iff_eq] at h
        have ha : a.isWhitespace = false := hpat a (List.mem_cons_self _ _)
        have hw : w.isWhitespace = true := hx
        rw [h.1] at ha
        rw [hw] at ha
        exact Bool.true_eq_false.mp ha
    | cons b bs =>
      simp only [List.cons_append, schemeAt, Bool.and_eq_true] at h ⊢
      exact ⟨h.1, ih (fun c hc => hpat c (List.mem_cons_of_mem _ hc)) h.2⟩

theorem urlAt_head {c : Char} {cs : List Char} (h : urlAt (c :: cs) = true) :
    c = 'h' := by
  rcases Bool.or_eq_true_iff.mp h with h' | h' <;>
  · simp only [schemeAt, Bool.and_eq_true, beq_iff_eq] at h'
    exact h'.1.symm

theorem ws_not_urlAt {c : Char} {cs : List Char} (hc : c.isWhitespace = true) :
    urlAt (c :: cs) = false := by
  cases h : urlAt (c :: cs) with
  | false => rfl
  | true =>
    rw [urlAt_head h] at hc
    exact absurd hc (by decide)

theorem urlAt_append_right {p : List Char} (y : List Char)
    (h : urlAt p = true) : urlAt (p ++ y) = true := by
  rcases Bool.or_eq_true_iff.mp h with h' | h'
  · exact Bool.or_eq_true_iff.mpr (Or.inl (schemeAt_append_right y h'))
  · exact Bool.or_eq_true_iff.mpr (Or.inr (schemeAt_append_right y h'))

theorem urlAt_append_ws {p x : List Char} (hx : HeadWs x)
    (h : urlAt (p ++ x) = true) : urlAt p = true := by
  rcases Bool.or_eq_true_iff.mp h with h' | h'
  · exact Bool.or_eq_true_iff.mpr
      (Or.inl (schemeAt_append_ws (by decide) hx h'))
  · exact Bool.or_eq_true_iff.mpr
      (Or.inr (schemeAt_append_ws (by decide) hx h'))

theorem headWs_dropWhile (l : List Char) :
    HeadWs (l.dropWhile fun d => !d.isWhitespace) := by
  induction l with
  | nil => trivial
  | cons c cs ih =>
    by_cases h : c.isWhitespace = true
    · rw [List.dropWhile_cons_of_neg (by simp [h])]
      exact h
    · rw [List.dropWhile_cons_of_pos (by simpa using h)]
      exact ih

theorem headWs_stripScan {l : List Char} (h : HeadWs l) :
    HeadWs (stripScan false l) := by
  cases l with
  | nil => trivial
  | cons c cs =>
    have hc : c.isWhitespace = true := h
    simp only [stripScan, ws_not_urlAt hc, Bool.false_eq_true, if_false]
    exact hc

theorem stripScan_true_eq (cs : List Char) :
    stripScan true cs = stripScan false (cs.dropWhile fun d => !d.isWhitespace) := by
  induction cs with
  | nil => rfl
  | cons d ds ih =>
    by_cases h : d.isWhitespace = true
    · rw [List.dropWhile_cons_of_neg (by simp [h])]
      simp only [stripScan, h, if_true, ws_not_urlAt h, Bool.false_eq_true, if_false]
    · rw [List.dropWhile_cons_of_pos (by simpa using h)]
      simp only [stripScan, h, Bool.false_eq_true, if_false]
      exact ih

theorem stripScan_noUrl : (l : List Char) →
    hasUrlAt (stripScan false l) = false ∧
    ∀ p : List Char, (∀ c ∈ p, c.isWhitespace = false) →
      urlAt (p ++ l) = false → urlAt (p ++ stripScan false l) = false
  | [] => by
    refine ⟨rfl, ?_⟩
    intro p _ h
    simpa [stripScan] using h
  | c :: cs => by
    by_cases h : urlAt (c :: cs) = true
    · have hlen : (cs.dropWhile fun d => !d.isWhitespace).length < (c :: cs).length :=
        Nat.lt_succ_of_le (List.dropWhile_sublist _).length_le
      have hst : stripScan false (c :: cs)
          = stripScan false (cs.dropWhile fun d => !d.isWhitespace) := by
        simp only [stripScan, h, if_true]
        exact stripScan_true_eq cs
      obtain ⟨ih1, -⟩ := stripScan_noUrl (cs.dropWhile fun d => !d.isWhitespace)
      have hws : HeadWs (stripScan false (cs.dropWhile fun d => !d.isWhitespace)) :=
        headWs_stripScan (headWs_dropWhile cs)
      refine ⟨by rw [hst]; exact ih1, ?_⟩
      intro p hp hfp
      rw [hst]
      cases hcon : urlAt (p ++ stripScan false (cs.dropWhile fun d => !d.isWhitespace)) with
      | false => rfl
      | true =>
        have h1 : urlAt p = true := urlAt_append_ws hws hcon
        have h2 : urlAt (p ++ (c :: cs)) = true := urlAt_append_right _ h1
        rw [hfp] at h2
        exact absurd h2 (by simp)
    · have hst : stripScan false (c :: cs) = c :: stripScan false cs := by
        simp only [stripScan]
        rw [if_neg (by simpa using h)]
      obtain ⟨ih1, ih2⟩ := stripScan_noUrl cs
      have hcc : urlAt (c :: cs) = false := by simpa using h
      have hy : urlAt (c :: stripScan false cs) = false := by
        by_cases hcws : c.isWhitespace = true
        · exact ws_not_urlAt hcws
        · have := ih2 [c] (by
            intro d hd
            rcases List.mem_singleton.mp hd with rfl
            simpa using hcws) (by simpa using hcc)
          simpa using this
      refine ⟨?_, ?_⟩
      · rw [hst]
        simp [hasUrlAt, hy, ih1]
      · intro p hp hfp
        rw [hst]
        by_cases hcws : c.isWhitespace = true
        · cases hcon : urlAt (p ++ c :: stripScan false cs) with
          | false => rfl
          | true =>
            have h1 : urlAt p = true := urlAt_append_ws (show HeadWs (c :: _) from hcws) hcon
            have h2 : urlAt (p ++ (c :: cs)) = true := urlAt_append_right _ h1
            rw [hfp] at h2
            exact absurd h2 (by simp)
        · have hp' : ∀ d ∈ p ++ [c], d.isWhitespace = false := by
            intro d hd
            rcases List.mem_append.mp hd with h' | h'
            · exact hp d h'
            · rcases List.mem_singleton.mp h' with rfl
              simpa using hcws
          have hfp' : urlAt ((p ++ [c]) ++ cs) = false := by
            simpa [List.append_assoc] using hfp
          have := ih2 (p ++ [c]) hp' hfp'
          simpa [List.append_assoc] using this
termination_by l => l.length
decreasing_by
  · exact hlen
  · exact Nat.lt_succ_self _

theorem hasUrlAt_stripUrlsAux (l : List Char) : hasUrlAt (stripUrlsAux l) = false :=
  (stripScan_noUrl l).1

theorem hasUrlAt_append_left {u : List Char} (v : List Char)
    (h : hasUrlAt u = true) : hasUrlAt (u ++ v) = true := by
  induction u with
  | nil => simp [hasUrlAt] at h
  | cons c cs ih =>
    simp only [hasUrlAt, Bool.or_eq_true] at h
    simp only [List.cons_append, hasUrlAt, Bool.or_eq_true]
    rcases h with h | h
    · have := urlAt_append_right v h
      simp only [List.cons_append] at this
      exact Or.inl this
    · exact Or.inr (ih h)

theorem hasUrlAt_dropWhile {l : List Char} (q : Char → Bool)
    (h : hasUrlAt l = false) : hasUrlAt (l.dropWhile q) = false := by
  induction l with
  | nil => simpa using h
  | cons c cs ih =>
    simp only [hasUrlAt, Bool.or_eq_false_iff] at h
    by_cases hq : q c = true
    · rw [List.dropWhile_cons_of_pos hq]
      exact ih h.2
    · rw [List.dropWhile_cons_of_neg (by simpa using hq)]
      simp [hasUrlAt, h.1, h.2]

theorem hasUrlAt_trimChars {l : List Char} (h : hasUrlAt l = false) :
    hasUrlAt (trimChars l) = false := by
  unfold trimChars
  have h1 : hasUrlAt (l.dropWhile Char.isWhitespace) = false := hasUrlAt_dropWhile _ h
  cases hcon : hasUrlAt
      (((l.dropWhile Char.isWhitespace).reverse.dropWhile Char.isWhitespace).reverse) with
  | false => rfl
  | true =>
    exfalso
    have hdecomp :
        ((l.dropWhile Char.isWhitespace).reverse.dropWhile Char.isWhitespace).reverse
          ++ ((l.dropWhile Char.isWhitespace).reverse.takeWhile Char.isWhitespace).reverse
        = l.dropWhile Char.isWhitespace := by
      rw [← List.reverse_append, List.takeWhile_append_dropWhile, List.reverse_reverse]
    have h2 := hasUrlAt_append_left
      ((l.dropWhile Char.isWhitespace).reverse.takeWhile Char.isWhitespace).reverse hcon
    rw [hdecomp, h1] at h2
    exact absurd h2 (by simp)

theorem containsUrl_stripUrls (x : Option String) : containsUrl (stripUrls x) = false := by
  cases x with
  | none => rfl
  | some s =>
    by_cases h : s = ""
    · simp only [stripUrls, if_pos h]
      rfl
    · simp only [stripUrls, if_neg h]
      show hasUrlAt (trimChars (stripUrlsAux s.toList)) = false
      exact hasUrlAt_trimChars (hasUrlAt_stripUrlsAux _)

/-! ### Reader lemmas: merge determinism, partial failure, URL-free output -/

theorem getEventsForRange_sorted (ids : List String)
    (fetch : String → Except String (List GEvent)) :
    List.Sorted sortByStart (getEventsForRange ids fetch) := by
  unfold getEventsForRange
  by_cases h : ids.isEmpty
  · simp [h]
  · simp only [h, Bool.false_eq_true, if_false]
    exact List.sorted_insertionSort sortByStart _

theorem getEventsForRange_stable (ids : List String)
    (fetch : String → Except String (List GEvent)) (t : Int) :
    (getEventsForRange ids fetch).filter (fun e => decide (startMs e = t))
      = (allEventsOf ids fetch).filter (fun e => decide (startMs e = t)) := by
  unfold getEventsForRange
  by_cases h : ids.isEmpty
  · have hids : ids = [] := List.isEmpty_iff.mp h
    subst hids
    simp [allEventsOf]
  · simp only [h, Bool.false_eq_true, if_false]
    have hpw : ((allEventsOf ids fetch).filter
        (fun e => decide (startMs e = t))).Pairwise sortByStart := by
      apply List.pairwise_of_forall_mem_list
      intro a ha b hb
      have ha' : startMs a = t := of_decide_eq_true (List.mem_filter.mp ha).2
      have hb' : startMs b = t := of_decide_eq_true (List.mem_filter.mp hb).2
      unfold sortByStart
      rw [ha', hb']
    have hsub : List.Sublist
        ((allEventsOf ids fetch).filter (fun e => decide (startMs e = t)))
        ((allEventsOf ids fetch).insertionSort sortByStart) :=
      List.sublist_insertionSort hpw (List.filter_sublist _)
    have hsub2 : List.Sublist
        ((allEventsOf ids fetch).filter (fun e => decide (startMs e = t)))
        (((allEventsOf ids fetch).insertionSort sortByStart).filter
            (fun e => decide (startMs e = t))) := by
      have := hsub.filter (fun e => decide (startMs e = t))
      rwa [List.filter_filter, (by
        funext a
        rw [Bool.and_self] :
          (fun a => decide (startMs a = t) && decide (startMs a = t))
            = fun a => decide (startMs a = t))] at this
    have hperm : List.Perm
        (((allEventsOf ids fetch).insertionSort sortByStart).filter
          (fun e => decide (startMs e = t)))
        ((allEventsOf ids fetch).filter (fun e => decide (startMs e = t))) :=
      (List.perm_insertionSort sortByStart _).filter _
    exact (hsub2.eq_of_length hperm.length_eq.symm).symm

theorem getEventsForRange_noUrls (ids : List String)
    (fetch : String → Except String (List GEvent)) (e : GEvent)
    (he : e ∈ getEventsForRange ids fetch) :
    containsUrl (e.summary.getD "") = false
      ∧ containsUrl (e.description.getD "") = false := by
  unfold getEventsForRange at he
  by_cases h : ids.isEmpty
  · simp [h] at he
  · simp only [h, Bool.false_eq_true, if_false] at he
    rw [List.mem_insertionSort] at he
    unfold allEventsOf at he
    rw [List.mem_map] at he
    obtain ⟨a, -, rfl⟩ := he
    exact ⟨containsUrl_stripUrls _, containsUrl_stripUrls _⟩

/-! ### Sweep-loop lemmas (free-slot finder) -/

theorem sweepSlots_length_le (dm : Int) (busy : List Interval) :
    ∀ c : Int, (sweepSlots dm busy c).length ≤ busy.length := by
  induction busy with
  | nil => intro c; simp [sweepSlots]
  | cons b rest ih =>
    intro c
    have := ih b.stop
    by_cases h : b.start - c ≥ dm <;>
      simp only [sweepSlots, h, if_pos, if_neg, List.length_append, List.length_cons,
        List.length_singleton, List.length_nil, not_false_eq_true] <;>
      omega

theorem slotsLoop_eq (dm : Int) (limit : Nat) (busy : List Interval) :
    ∀ (c : Int) (free : List Interval), wfBusy c busy = true →
      free.length + busy.length < limit →
      slotsLoop dm limit busy c free
        = Sum.inr (free ++ sweepSlots dm busy c, finalCursor busy c) := by
  induction busy with
  | nil =>
    intro c free _ _
    simp [slotsLoop, sweepSlots, finalCursor]
  | cons b rest ih =>
    intro c free hwf hlim
    simp only [wfBusy, Bool.and_eq_true, decide_eq_true_eq] at hwf
    obtain ⟨⟨h1, h2⟩, h3⟩ := hwf
    simp only [List.length_cons] at hlim
    have hcur : (if b.stop > c then b.stop else c) = b.stop := if_pos (by omega)
    simp only [slotsLoop, sweepSlots, finalCursor]
    rw [if_neg (show ¬(b.stop ≤ c) by omega)]
    by_cases hgap : b.start - c ≥ dm
    · rw [if_pos hgap]
      rw [if_neg (show ¬((free ++ [Interval.mk c (c + dm)]).length ≥ limit) by
        simp only [List.length_append, List.length_singleton]; omega)]
      rw [hcur]
      rw [ih b.stop (free ++ [Interval.mk c (c + dm)]) h3
        (by simp only [List.length_append, List.length_singleton]; omega)]
      rw [if_pos hgap]
      simp [List.append_assoc]
    · rw [if_neg hgap, hcur]
      rw [ih b.stop free h3 (by omega)]
      rw [if_neg hgap]
      simp

theorem fullSweep_cons (dm : Int) (b : Interval) (rest : List Interval) (c e : Int) :
    fullSweep dm (b :: rest) c e
      = (if b.start - c ≥ dm then [Interval.mk c (c + dm)] else [])
          ++ fullSweep dm rest b.stop e := by
  simp [fullSweep, sweepSlots, finalCursor, List.append_assoc]

theorem fullSweep_mem (dm : Int) (busy : List Interval) :
    ∀ (c e : Int) (s : Interval), wfBusy c busy = true →
      s ∈ fullSweep dm busy c e → c ≤ s.start ∧ s.stop = s.start + dm := by
  induction busy with
  | nil =>
    intro c e s _ hs
    simp only [fullSweep, sweepSlots, finalCursor, List.nil_append] at hs
    by_cases h : e - c ≥ dm
    · rw [if_pos h] at hs
      rw [List.mem_singleton] at hs
      subst hs
      exact ⟨le_refl _, rfl⟩
    · rw [if_neg h] at hs
      exact absurd hs (List.not_mem_nil _)
  | cons b rest ih =>
    intro c e s hwf hs
    simp only [wfBusy, Bool.and_eq_true, decide_eq_true_eq] at hwf
    obtain ⟨⟨h1, h2⟩, h3⟩ := hwf
    rw [fullSweep_cons] at hs
    rcases List.mem_append.mp hs with hl | hr
    · by_cases h : b.start - c ≥ dm
      · rw [if_pos h] at hl
        rw [List.mem_singleton] at hl
        subst hl
        exact ⟨le_refl _, rfl⟩
      · rw [if_neg h] at hl
        exact absurd hl (List.not_mem_nil _)
    · obtain ⟨hs1, hs2⟩ := ih b.stop e s h3 hr
      exact ⟨by omega, hs2⟩

theorem finalCursor_ge (busy : List Interval) :
    ∀ c : Int, wfBusy c busy = true → c ≤ finalCursor busy c := by
  induction busy with
  | nil => intro c _; exact le_refl _
  | cons b rest ih =>
    intro c hwf
    simp only [wfBusy, Bool.and_eq_true, decide_eq_true_eq] at hwf
    obtain ⟨⟨h1, h2⟩, h3⟩ := hwf
    have := ih b.stop h3
    simp only [finalCursor]
    omega

theorem gapsOf_lo_ge (busy : List Interval) :
    ∀ (c e lo hi : Int), wfBusy c busy = true →
      (lo, hi) ∈ gapsOf c busy e → c ≤ lo := by
  induction busy with
  | nil =>
    intro c e lo hi _ hmem
    simp only [gapsOf, List.mem_singleton, Prod.mk.injEq] at hmem
    omega
  | cons b rest ih =>
    intro c e lo hi hwf hmem
    simp only [wfBusy, Bool.and_eq_true, decide_eq_true_eq] at hwf
    obtain ⟨⟨h1, h2⟩, h3⟩ := hwf
    rcases List.mem_cons.mp hmem with hhd | htl
    · rw [Prod.mk.injEq] at hhd
      omega
    · have := ih b.stop e lo hi h3 htl
      omega

theorem fullSweep_gap (dm : Int) (hdm : 0 < dm) (busy : List Interval) :
    ∀ (c e lo hi : Int), wfBusy c busy = true →
      (lo, hi) ∈ gapsOf c busy e → hi - lo ≥ 2 * dm →
      ((fullSweep dm busy c e).countP fun s => decide (lo ≤ s.start ∧ s.stop ≤ hi)) = 1
        ∧ Interval.mk lo (lo + dm) ∈ fullSweep dm busy c e := by
  induction busy with
  | nil =>
    intro c e lo hi _ hmem hbig
    simp only [gapsOf, List.mem_singleton, Prod.mk.injEq] at hmem
    obtain ⟨hlo, hhi⟩ := hmem
    simp only [fullSweep, sweepSlots, finalCursor, List.nil_append]
    rw [if_pos (show e - c ≥ dm by omega)]
    constructor
    · simp only [List.countP_cons, List.countP_nil]
      rw [if_pos (decide_eq_true (show lo ≤ c ∧ c + dm ≤ hi from by
        constructor <;> omega))]
    · rw [hlo]
      exact List.mem_singleton_self _
  | cons b rest ih =>
    intro c e lo hi hwf hmem hbig
    simp only [wfBusy, Bool.and_eq_true, decide_eq_true_eq] at hwf
    obtain ⟨⟨h1, h2⟩, h3⟩ := hwf
    rw [fullSweep_cons]
    rcases List.mem_cons.mp hmem with hhd | htl
    · rw [Prod.mk.injEq] at hhd
      obtain ⟨hlo, hhi⟩ := hhd
      rw [if_pos (show b.start - c ≥ dm by omega)]
      constructor
      · rw [List.countP_append]
        have hone : List.countP (fun s => decide (lo ≤ s.start ∧ s.stop ≤ hi))
            [Interval.mk c (c + dm)] = 1 := by
          simp only [List.countP_cons, List.countP_nil]
          rw [if_pos (decide_eq_true (show lo ≤ c ∧ c + dm ≤ hi from by
            constructor <;> omega))]
        have hzero : List.countP (fun s => decide (lo ≤ s.start ∧ s.stop ≤ hi))
            (fullSweep dm rest b.stop e) = 0 := by
          rw [List.countP_eq_zero]
          intro s hs
          obtain ⟨hs1, hs2⟩ := fullSweep_mem dm rest b.stop e s h3 hs
          simp only [decide_eq_true_eq, not_and]
          intro _
          omega
        omega
      · rw [hlo]
        exact List.mem_append_left _ (List.mem_singleton_self _)
    · have hblo : b.stop ≤ lo := gapsOf_lo_ge rest b.stop e lo hi h3 htl
      obtain ⟨hcount, hmem2⟩ := ih b.stop e lo hi h3 htl hbig
      constructor
      · rw [List.countP_append, hcount]
        have hzero : List.countP (fun s => decide (lo ≤ s.start ∧ s.stop ≤ hi))
            (if b.start - c ≥ dm then [Interval.mk c (c + dm)] else []) = 0 := by
          by_cases hgap : b.start - c ≥ dm
          · rw [if_pos hgap]
            simp only [List.countP_cons, List.countP_nil]
            rw [if_neg (by
              simp only [decide_eq_true_eq, not_and]
              intro hlo
              omega)]
          · rw [if_neg hgap]
            exact List.countP_nil _
        omega
      · exact List.mem_append_right _ hmem2

theorem findOpenSlots_eq_fullSweep (dateStart : Int) (ids : List String)
    (fetch : String → Except String (List GEvent)) (durationMinutes : Int) (limit : Nat)
    (hwf : wfBusy (dateStart + MIN_HOUR * 3600000) (busyOf ids fetch) = true)
    (hlim : (busyOf ids fetch).length < limit) :
    findOpenSlots dateStart ids fetch durationMinutes limit
      = fullSweep (durationMinutes * 60 * 1000) (busyOf ids fetch)
          (dateStart + MIN_HOUR * 3600000) (dateStart + MAX_HOUR * 3600000) := by
  unfold findOpenSlots
  rw [slotsLoop_eq _ _ _ _ [] hwf (by simpa using hlim)]
  simp only [List.nil_append]
  have hlen : (sweepSlots (durationMinutes * 60 * 1000) (busyOf ids fetch)
      (dateStart + MIN_HOUR * 3600000)).length < limit :=
    lt_of_le_of_lt (sweepSlots_length_le _ _ _) hlim
  unfold fullSweep
  by_cases hfin : dateStart + MAX_HOUR * 3600000
      - finalCursor (busyOf ids fetch) (dateStart + MIN_HOUR * 3600000)
      ≥ durationMinutes * 60 * 1000
  · rw [if_pos ⟨hfin, hlen⟩, if_pos hfin]
    apply List.take_of_length_le
    simp only [List.length_append, List.length_singleton]
    omega
  · rw [if_neg (fun hand => hfin hand.1), if_neg hfin]
    rw [List.append_nil]
    exact List.take_of_length_le (le_of_lt hlen)

/-! ### All-day events are not discarded -/

theorem allDay_busyOf (d : Int) (cid : String)
    (fetch : String → Except String (List GEvent))
    (hf : fetch cid = Except.ok [allDayEv d]) :
    busyOf [cid] fetch = [Interval.mk d (d + 86400000)] := by
  unfold busyOf getEventsForDate getEventsForRange allEventsOf
  simp [hf, sanitizeEvent, evInterval, allDayEv, EventTime.resolve, EventTime.allDay,
    List.insertionSort, List.orderedInsert]

theorem allDay_blocks_day (d dur : Int) (limit : Nat) (cid : String)
    (fetch : String → Except String (List GEvent))
    (hf : fetch cid = Except.ok [allDayEv d]) (hdur : 1 ≤ dur) :
    findOpenSlots d [cid] fetch dur limit = [] := by
  unfold findOpenSlots
  rw [allDay_busyOf d cid fetch hf]
  have hloop : slotsLoop (dur * 60 * 1000) limit [Interval.mk d (d + 86400000)]
      (d + MIN_HOUR * 3600000) [] = Sum.inr ([], d + 86400000) := by
    simp only [slotsLoop, MIN_HOUR]
    rw [if_neg (show ¬((Interval.mk d (d + 86400000)).stop ≤ d + 8 * 3600000) by
      simp only [Interval.stop]; omega)]
    rw [if_neg (show ¬((Interval.mk d (d + 86400000)).start - (d + 8 * 3600000)
        ≥ dur * 60 * 1000) by simp only [Interval.start]; omega)]
    rw [if_pos (show (Interval.mk d (d + 86400000)).stop > d + 8 * 3600000 by
      simp only [Interval.stop]; omega)]
  rw [hloop]
  simp only [MAX_HOUR]
  rw [if_neg (show ¬(d + 22 * 3600000 - (d + 86400000) ≥ dur * 60 * 1000
      ∧ ([] : List Interval).length < limit) from fun hand => by
    have := hand.1
    omega)]
  simp

/-! ### Reschedule frame property -/

theorem readEvent_map_patch (calendarId eventId : String) (body : PatchBody)
    (e : GEvent) :
    ∀ store : Store, readEvent store calendarId eventId = some e →
      readEvent (store.map fun kv =>
          if kv.1 = (calendarId, eventId) then (kv.1, applyPatch body kv.2) else kv)
        calendarId eventId = some (applyPatch body e) := by
  intro store
  induction store with
  | nil =>
    intro hfound
    simp [readEvent] at hfound
  | cons kv rest ih =>
    intro hfound
    by_cases hk : kv.1 = (calendarId, eventId)
    · unfold readEvent at hfound
      rw [List.find?_cons_of_pos _ (by simpa using hk)] at hfound
      simp only [Option.map] at hfound
      obtain rfl : kv.2 = e := Option.some.injEq .. |>.mp hfound
      unfold readEvent
      rw [List.map_cons, if_pos hk]
      rw [List.find?_cons_of_pos _ (by simpa using hk)]
      rfl
    · unfold readEvent at hfound ⊢
      rw [List.find?_cons_of_neg _ (by simpa using hk)] at hfound
      rw [List.map_cons, if_neg hk]
      rw [List.find?_cons_of_neg _ (by simpa using hk)]
      exact ih hfound

/-! ### The claims -/

/-- Claim C1: the containment guarantee fails in the code.  On the day whose
local midnight is instant 0, with busy events 08:00–21:30 and 23:00–23:59, a
60-minute request returns exactly the slot 21:30–22:30, whose end exceeds the
working-hours window end `dateStart + MAX_HOUR * 3600000` (22:00): an event
after MAX_HOUR opens a loop gap that is not clipped to the window. -/
theorem C1_slot_exceeds_window :
    findOpenSlots 0 ["cal1"] fetchLateEvening 60 100 = [Interval.mk 77400000 81000000]
    ∧ (0 : Int) + MAX_HOUR * 3600000 < 81000000 :=
  ⟨by decide, by decide⟩

/-- Claim C2 counterexample: a pure all-day event (date fields only, no
dateTime) removes the free slot the same request returns on an empty day, so
all-day events are not discarded before the sweep and do block slots. -/
theorem C2_allday_blocks_cex :
    findOpenSlots 0 ["cal1"] fetchAllDay 60 100 = []
    ∧ findOpenSlots 0 ["cal1"] fetchNone 60 100 = [Interval.mk 28800000 32400000] :=
  ⟨by decide, by decide⟩

/-- Claim C2 (amended): `findOpenSlots` does not discard date-only events: the
busy projection falls back to the `date` fields, so a pure all-day event
covering its day contributes the busy interval `[d, d + 86400000]` and blocks
the whole window — no slot is returned, for every date, positive duration and
limit. -/
theorem C2_allday_event_blocks_day (d dur : Int) (limit : Nat) (cid : String)
    (fetch : String → Except String (List GEvent))
    (hf : fetch cid = Except.ok [allDayEv d]) (hdur : 1 ≤ dur) :
    findOpenSlots d [cid] fetch dur limit = [] :=
  allDay_blocks_day d dur limit cid fetch hf hdur

/-- Witness for C2 at date 0, 60 minutes, limit 100. -/
theorem C2_allday_event_blocks_day_witness :
    findOpenSlots 0 ["cal1"] fetchAllDay 60 100 = [] :=
  C2_allday_event_blocks_day 0 60 100 "cal1" fetchAllDay rfl (by decide)

/-- Claim C3 counterexample: the query "cancel the sergio call" DOES match the
event titled "Sergio's Birthday": "call" (and "cancel", "the") are stopwords,
so the token set is just {"sergio"}, which occurs in both Sergio events —
the returned matches are the strategy call AND the birthday. -/
theorem C3_sergio_birthday_matches_cex :
    (searchEventsByText ["cal1"] fetchSergio (some "cancel the sergio call")).map
        (fun e => e.summary)
      = [some "Sergio – Strategy Call", some "Sergio\x27s Birthday"] := by
  decide

/-- Claim C3 (amended): query "gym" matches the event titled "Morning Gym
Session"; for "cancel the sergio call" stopword stripping leaves exactly the
token list ["sergio"] ("call" is a stopword), and the query matches both
"Sergio – Strategy Call" and "Sergio's Birthday". -/
theorem C3_fuzzy_match_amended :
    (searchEventsByText ["cal1"] fetchSergio (some "gym")).map (fun e => e.summary)
        = [some "Morning Gym Session"]
    ∧ tokensOf "cancel the sergio call" = ["sergio"]
    ∧ (searchEventsByText ["cal1"] fetchSergio (some "cancel the sergio call")).map
        (fun e => e.summary)
      = [some "Sergio – Strategy Call", some "Sergio\x27s Birthday"] :=
  ⟨by decide, by decide, by decide⟩

/-- Claim C4: the limit bound fails at limit = 0.  With a 10:00–11:00 busy
event and limit 0, the in-loop early return fires right after the first push
and returns the un-sliced list: one slot is returned instead of zero. -/
theorem C4_limit_zero_returns_slot :
    findOpenSlots 0 ["cal1"] fetchMidMorning 60 0 = [Interval.mk 28800000 32400000]
    ∧ (findOpenSlots 0 ["cal1"] fetchMidMorning 60 0).length = 1 :=
  ⟨by decide, by decide⟩

/-- Claim C5: for any fixed per-source responses, the merged range read is
sorted ascending by start instant, and the events with any given start
instant appear exactly as in the source-configuration-order concatenation
(first-configured source first) — the merge is a deterministic stable sort. -/
theorem C5_merge_deterministic (ids : List String)
    (fetch : String → Except String (List GEvent)) :
    List.Sorted sortByStart (getEventsForRange ids fetch)
    ∧ ∀ t : Int,
      (getEventsForRange ids fetch).filter (fun e => decide (startMs e = t))
        = (allEventsOf ids fetch).filter (fun e => decide (startMs e = t)) :=
  ⟨getEventsForRange_sorted ids fetch, fun t => getEventsForRange_stable ids fetch t⟩

/-- Claim C6: for every gap of the (well-formed) busy list — between two
consecutive busy intervals or between a window edge and a busy interval — of
length at least twice the requested duration, exactly one returned slot lies
inside that gap, and it is the earliest-placed one, starting at the gap's
lower edge. -/
theorem C6_greedy_gap (dateStart : Int) (ids : List String)
    (fetch : String → Except String (List GEvent)) (durationMinutes : Int)
    (limit : Nat) (lo hi : Int)
    (hwf : wfBusy (dateStart + MIN_HOUR * 3600000) (busyOf ids fetch) = true)
    (hdur : 0 < durationMinutes)
    (hlim : (busyOf ids fetch).length < limit)
    (hgap : (lo, hi) ∈ gapsOf (dateStart + MIN_HOUR * 3600000) (busyOf ids fetch)
        (dateStart + MAX_HOUR * 3600000))
    (hbig : hi - lo ≥ 2 * (durationMinutes * 60 * 1000)) :
    ((findOpenSlots dateStart ids fetch durationMinutes limit).countP
        fun s => decide (lo ≤ s.start ∧ s.stop ≤ hi)) = 1
    ∧ Interval.mk lo (lo + durationMinutes * 60 * 1000)
        ∈ findOpenSlots dateStart ids fetch durationMinutes limit := by
  rw [findOpenSlots_eq_fullSweep dateStart ids fetch durationMinutes limit hwf hlim]
  exact fullSweep_gap _ (by omega) _ _ _ _ _ hwf hgap hbig

/-- Witness for C6: one 10:00–11:00 busy event, 60-minute duration; the
08:00–10:00 edge gap is exactly 2 hours = 2 × duration and receives exactly
one slot, 08:00–09:00. -/
theorem C6_greedy_gap_witness :
    ((findOpenSlots 0 ["cal1"] fetchMidMorning 60 100).countP
        fun s => decide ((28800000 : Int) ≤ s.start ∧ s.stop ≤ 36000000)) = 1
    ∧ Interval.mk 28800000 (28800000 + 60 * 60 * 1000)
        ∈ findOpenSlots 0 ["cal1"] fetchMidMorning 60 100 :=
  C6_greedy_gap 0 ["cal1"] fetchMidMorning 60 100 28800000 36000000
    (by decide) (by decide) (by decide) (by decide) (by decide)

/-- Claim C7: a failing source contributes exactly zero events — replacing the
failed source's response by an empty success changes nothing — and when every
configured source fails, the range read returns the empty list rather than an
error. -/
theorem C7_source_failure_graceful (ids : List String)
    (fetch : String → Except String (List GEvent)) (badId msg : String)
    (hbad : fetch badId = Except.error msg) :
    getEventsForRange ids fetch
      = getEventsForRange ids (fun i => if i = badId then Except.ok [] else fetch i)
    ∧ ((∀ i ∈ ids, ∃ m, fetch i = Except.error m) →
        getEventsForRange ids fetch = []) := by
  constructor
  · have hFG : (fun (calId : String) => (match fetch calId with
        | Except.ok items => items.map fun e => { e with calendarId := some calId }
        | Except.error _ => [] : List GEvent))
        = (fun (calId : String) =>
            (match (if calId = badId then Except.ok [] else fetch calId) with
            | Except.ok items => items.map fun e => { e with calendarId := some calId }
            | Except.error _ => [] : List GEvent)) := by
      funext i
      by_cases hi : i = badId
      · subst hi
        rw [hbad, if_pos rfl]
        simp
      · rw [if_neg hi]
    have hAll : allEventsOf ids fetch
        = allEventsOf ids (fun i => if i = badId then Except.ok [] else fetch i) :=
      congrArg (fun F => (ids.flatMap F).map sanitizeEvent) hFG
    unfold getEventsForRange
    rw [hAll]
  · intro hall
    have hflat : (ids.flatMap fun calId => match fetch calId with
        | Except.ok items => items.map fun e => { e with calendarId := some calId }
        | Except.error _ => ([] : List GEvent)) = [] := by
      rw [List.flatMap_eq_nil_iff]
      intro i hi
      obtain ⟨m, hm⟩ := hall i hi
      rw [hm]
    unfold getEventsForRange allEventsOf
    rw [hflat]
    by_cases h : ids.isEmpty <;> simp [h, List.insertionSort]

/-- Witness for C7: a single always-failing source yields the substitution
equality and (after discharging the all-fail antecedent separately) an empty
read. -/
theorem C7_source_failure_graceful_witness :
    getEventsForRange ["cal1"] fetchFail
        = getEventsForRange ["cal1"]
            (fun i => if i = "cal1" then Except.ok [] else fetchFail i)
    ∧ ((∀ i ∈ ["cal1"], ∃ m, fetchFail i = Except.error m) →
        getEventsForRange ["cal1"] fetchFail = []) :=
  C7_source_failure_graceful ["cal1"] fetchFail "cal1" "backend unavailable" rfl

/-- Claim C8: rescheduling patches only the time fields.  If the store holds
event `e` under (calendarId, eventId) and both identifiers are non-empty, the
patch succeeds and a subsequent read returns `e` with `start`/`stop` replaced
by the new timed instants and `summary`, `description`, `location` and
`calendarId` unchanged. -/
theorem C8_reschedule_preserves_fields (store : Store) (calendarId eventId : String)
    (newStart newEnd : Int) (e : GEvent)
    (hcid : calendarId ≠ "") (heid : eventId ≠ "")
    (hfound : readEvent store calendarId eventId = some e) :
    ∃ store2,
      rescheduleEventById store calendarId eventId newStart newEnd = Except.ok store2
      ∧ readEvent store2 calendarId eventId = some
          { summary := e.summary, description := e.description,
            location := e.location, start := EventTime.timed newStart,
            stop := EventTime.timed newEnd, calendarId := e.calendarId } := by
  have hok : ¬(calendarId = "" ∨ eventId = "") := fun h => h.elim hcid heid
  unfold rescheduleEventById
  rw [if_neg hok]
  refine ⟨_, rfl, ?_⟩
  exact readEvent_map_patch calendarId eventId
    ⟨some (EventTime.timed newStart), some (EventTime.timed newEnd)⟩ e store hfound

/-- Witness for C8 on a one-event store. -/
theorem C8_reschedule_preserves_fields_witness :
    ∃ store2,
      rescheduleEventById demoStore "cal1" "ev1" 5000 6000 = Except.ok store2
      ∧ readEvent store2 "cal1" "ev1" = some
          { summary := some "Dentist", description := some "check-up",
            location := some "clinic", start := EventTime.timed 5000,
            stop := EventTime.timed 6000, calendarId := some "cal1" } :=
  C8_reschedule_preserves_fields demoStore "cal1" "ev1" 5000 6000
    { summary := some "Dentist", description := some "check-up",
      location := some "clinic", start := EventTime.timed 1000,
      stop := EventTime.timed 2000, calendarId := some "cal1" }
    (by decide) (by decide) (by decide)

/-- Claim C9 counterexample: the `location` free-text field is not sanitized:
an event whose location holds a Zoom URL is returned with that URL intact
(while its summary was stripped), so a raw link does surface in a free-text
field of a returned event. -/
theorem C9_location_url_cex :
    (getEventsForRange ["cal1"] fetchZoom).map (fun e => (e.summary, e.location))
      = [(some "Standup  sync", some "https://zoom.us/j/123")]
    ∧ containsUrl "https://zoom.us/j/123" = true :=
  ⟨by decide, by decide⟩

/-- Claim C9 (amended): every event returned by the range read has URL-free
`summary` and `description` (no `http://` or `https://` link — scheme followed
by a non-whitespace character — occurs in them); the `location` field is not
sanitized. -/
theorem C9_returned_fields_url_free (ids : List String)
    (fetch : String → Except String (List GEvent)) (e : GEvent)
    (he : e ∈ getEventsForRange ids fetch) :
    containsUrl (e.summary.getD "") = false
      ∧ containsUrl (e.description.getD "") = false :=
  getEventsForRange_noUrls ids fetch e he

/-- Witness for C9 on the Zoom fixture: the returned sanitized event is a
member of the output and its summary and description are URL-free. -/
theorem C9_returned_fields_url_free_witness :
    zoomOutEv ∈ getEventsForRange ["cal1"] fetchZoom
    ∧ containsUrl (zoomOutEv.summary.getD "") = false
    ∧ containsUrl (zoomOutEv.description.getD "") = false := by
  refine ⟨by decide, ?_, ?_⟩
  · exact (C9_returned_fields_url_free ["cal1"] fetchZoom zoomOutEv (by decide)).1
  · exact (C9_returned_fields_url_free ["cal1"] fetchZoom zoomOutEv (by decide)).2

/-- Claim C10: a query that is empty or all-whitespace (its lower-cased trim
is the empty string) makes `searchEventsByText` return the empty list — the
empty string is never treated as a universal substring match. -/
theorem C10_empty_query_returns_nil (ids : List String)
    (fetch : String → Except String (List GEvent)) (q : Option String)
    (h : trimStr (lowerStr (q.getD "")) = "") :
    searchEventsByText ids fetch q = [] := by
  unfold searchEventsByText
  by_cases hids : ids.isEmpty
  · rw [if_pos hids]
  · rw [if_neg hids, if_pos h]

/-- Witness for C10 with an all-whitespace query against a populated source. -/
theorem C10_empty_query_returns_nil_witness :
    searchEventsByText ["cal1"] fetchSergio (some "   ") = [] :=
  C10_empty_query_returns_nil ["cal1"] fetchSergio (some "   ") (by decide)

end PilotBot
